import Mathlib

/-!
Shallow embedding of the chess engine in `games/chess.py` (board
representation, move generation, check detection, move application,
evaluation, and fixed-depth minimax with alpha-beta pruning), together
with proofs settling the specification claims about it.

The Python board is an 8x8 list of lists of one-character strings,
indexed `b[y][x]`; it is modelled as a function `Fin 8 → Fin 8 → Char`
(first index the row `y`, second the column `x`).  Coordinates that the
code computes (which may leave the board) are integers; `cell` performs
the guarded read that the code only ever does after an `in_bounds`
check.  Colors are the Python strings `'white'`/`'black'` as a two
element inductive type.
-/

set_option maxRecDepth 10000
set_option maxHeartbeats 1000000

inductive Color where
  | white : Color
  | black : Color
deriving DecidableEq, Repr

open Color

/-- Opposite side, as computed by `'black' if color=='white' else 'white'`. -/
def enemy : Color → Color
  | white => black
  | black => white

/-- The board type: `b y x` is the character stored at `b[y][x]`. -/
abbrev Board := Fin 8 → Fin 8 → Char

/-- Moves are `((x1,y1),(x2,y2))` pairs of integer coordinates, as in the source. -/
abbrev Move := (Int × Int) × (Int × Int)

/-- Python `in_bounds(x,y)`: `0 <= x < 8 and 0 <= y < 8`. -/
def in_bounds (x y : Int) : Bool :=
  decide (0 ≤ x ∧ x < 8 ∧ 0 ≤ y ∧ y < 8)

/-- Python `is_white`: `piece.isupper()`. -/
def is_white (p : Char) : Bool := p.isUpper

/-- Python `is_black`: `piece.islower()`. -/
def is_black (p : Char) : Bool := p.isLower

/-- Python `piece_color`: `None` for `'.'`, else white iff uppercase. -/
def piece_color (p : Char) : Option Color :=
  if p = '.' then none
  else if p.isUpper then some white else some black

/-- Python `clone_board`: with value semantics copying is the identity. -/
def clone_board (b : Board) : Board := b

/-- Guarded board read `b[y][x]`, performed by the source only at
in-bounds coordinates; out of bounds it yields the empty cell. -/
def cell (b : Board) (x y : Int) : Char :=
  if h : 0 ≤ x ∧ x < 8 ∧ 0 ≤ y ∧ y < 8 then
    b ⟨y.toNat, by omega⟩ ⟨x.toNat, by omega⟩
  else '.'

/-- Board write `b[y][x] = p` (identity at out-of-bounds coordinates). -/
def setCell (b : Board) (x y : Int) (p : Char) : Board :=
  fun yi xi => if (xi.val : Int) = x ∧ (yi.val : Int) = y then p else b yi xi

/-- Coordinates `(x, y)` in the order the `for y … for x …` loops scan them. -/
def allSquares : List (Int × Int) :=
  (List.range 8).flatMap (fun y => (List.range 8).map (fun x => (Int.ofNat x, Int.ofNat y)))

/-- Python `initial_board()`: eight rows of characters, row 0 first. -/
def initial_board : Board :=
  fun yi xi =>
    (([ "rnbqkbnr",
        "pppppppp",
        "........",
        "........",
        "........",
        "........",
        "PPPPPPPP",
        "RNBQKBNR" ].map String.toList).getD yi.val []).getD xi.val '.'

/-- Python `find_king`: first scan hit of `'K'`/`'k'` in row-major order. -/
def find_king (b : Board) (c : Color) : Option (Int × Int) :=
  allSquares.find? (fun s => decide (cell b s.1 s.2 = (if c = white then 'K' else 'k')))

/-- Knight offsets, in source order. -/
def knight_offsets : List (Int × Int) :=
  [(1,2),(2,1),(2,-1),(1,-2),(-1,-2),(-2,-1),(-2,1),(-1,2)]

/-- King offsets: `dx` outer loop, `dy` inner loop, `(0,0)` skipped. -/
def king_offsets : List (Int × Int) :=
  [(-1,-1),(-1,0),(-1,1),(0,-1),(0,1),(1,-1),(1,0),(1,1)]

/-- Sliding directions for bishop/rook/queen, in source order. -/
def slide_dirs (pl : Char) : List (Int × Int) :=
  (if pl = 'b' ∨ pl = 'q' then [(1,1),(1,-1),(-1,1),(-1,-1)] else []) ++
  (if pl = 'r' ∨ pl = 'q' then [(1,0),(-1,0),(0,1),(0,-1)] else [])

/-- The slider `while in_bounds` loop.  Each iteration advances one step
in direction `(dx,dy)`, so from any in-bounds start the loop runs at
most 8 times before `in_bounds` fails; fuel 8 therefore reproduces it
exactly. -/
def slide_go (b : Board) (p : Char) (sx sy dx dy : Int) : Nat → Int → Int → List Move
  | 0, _, _ => []
  | n+1, nx, ny =>
    if in_bounds nx ny then
      if cell b nx ny = '.' then
        ((sx,sy),(nx,ny)) :: slide_go b p sx sy dx dy n (nx+dx) (ny+dy)
      else if piece_color (cell b nx ny) ≠ piece_color p then
        [((sx,sy),(nx,ny))]
      else []
    else []

/-- Pawn forward direction: the source's `dir = -1 if is_white(p) else 1`. -/
def pdir (p : Char) : Int := if is_white p then -1 else 1

/-- Pawn starting row: the source's `start_row = 6 if is_white(p) else 1`. -/
def pstart (p : Char) : Int := if is_white p then 6 else 1

/-- Python `gen_piece_moves(b, x, y, p)`. -/
def gen_piece_moves (b : Board) (x y : Int) (p : Char) : List Move :=
  let pl := p.toLower
  if pl = 'p' then
    (if in_bounds x (y + pdir p) ∧ cell b x (y + pdir p) = '.' then
      ((x,y),(x,y + pdir p)) ::
        (if y = pstart p ∧ cell b x (y + pdir p * 2) = '.' then
          [((x,y),(x,y + pdir p * 2))]
        else [])
    else []) ++
    ([(-1 : Int), 1].flatMap (fun dx =>
      if in_bounds (x+dx) (y + pdir p) ∧ cell b (x+dx) (y + pdir p) ≠ '.' ∧
          piece_color (cell b (x+dx) (y + pdir p)) ≠ piece_color p then
        [((x,y),(x+dx,y + pdir p))]
      else []))
  else if pl = 'n' then
    knight_offsets.flatMap (fun d =>
      if in_bounds (x+d.1) (y+d.2) ∧
          (cell b (x+d.1) (y+d.2) = '.' ∨
            piece_color (cell b (x+d.1) (y+d.2)) ≠ piece_color p) then
        [((x,y),(x+d.1,y+d.2))]
      else [])
  else if pl = 'b' ∨ pl = 'r' ∨ pl = 'q' then
    (slide_dirs pl).flatMap (fun d => slide_go b p x y d.1 d.2 8 (x+d.1) (y+d.2))
  else if pl = 'k' then
    king_offsets.flatMap (fun d =>
      if in_bounds (x+d.1) (y+d.2) ∧
          (cell b (x+d.1) (y+d.2) = '.' ∨
            piece_color (cell b (x+d.1) (y+d.2)) ≠ piece_color p) then
        [((x,y),(x+d.1,y+d.2))]
      else [])
  else []

/-- Python `gen_moves(b, for_color)`: row-major scan, skipping empty
cells and pieces of the wrong color. -/
def gen_moves (b : Board) (c : Color) : List Move :=
  allSquares.flatMap (fun s =>
    let p := cell b s.1 s.2
    if p = '.' then []
    else if c = white ∧ ¬ is_white p then []
    else if c = black ∧ ¬ is_black p then []
    else gen_piece_moves b s.1 s.2 p)

/-- Python `make_move(b, mv)`: copy, clear the source square, and place
the piece (a queen of its color when a pawn reaches row 0 or 7). -/
def make_move (b : Board) (mv : Move) : Board :=
  let x1 := mv.1.1
  let y1 := mv.1.2
  let x2 := mv.2.1
  let y2 := mv.2.2
  let p := cell b x1 y1
  let b2 := setCell b x1 y1 '.'
  if p.toLower = 'p' ∧ (y2 = 0 ∨ y2 = 7) then
    setCell b2 x2 y2 (if is_white p then 'Q' else 'q')
  else
    setCell b2 x2 y2 p

/-- Python `in_check(b, color)`: missing king counts as check, otherwise
some enemy pseudo-legal move must target the king square. -/
def in_check (b : Board) (c : Color) : Bool :=
  match find_king b c with
  | none => true
  | some k => (gen_moves b (enemy c)).any (fun mv => decide (mv.2.1 = k.1 ∧ mv.2.2 = k.2))

/-- Python `legal_moves(b, color)`: pseudo-legal moves whose application
does not leave the mover in check. -/
def legal_moves (b : Board) (c : Color) : List Move :=
  (gen_moves b c).filter (fun mv => !(in_check (make_move b mv) c))

/-- Python `VAL.get(p, 0)` over the piece-value table. -/
def VAL (p : Char) : Int :=
  if p = 'P' then 100
  else if p = 'N' then 320
  else if p = 'B' then 330
  else if p = 'R' then 500
  else if p = 'Q' then 900
  else if p = 'K' then 20000
  else 0

/-- Loop body of `eval_board`: add the signed value of one square. -/
def eval_step (b : Board) (s : Int) (sq : Int × Int) : Int :=
  let p := cell b sq.1 sq.2
  if p ≠ '.' then s + VAL p.toUpper * (if is_white p then 1 else -1) else s

/-- Python `eval_board(b)`: material sum, white positive. -/
def eval_board (b : Board) : Int :=
  allSquares.foldl (eval_step b) 0

/-- The maximizing (`color=='white'`) loop body of `minimax`, with the
recursive call abstracted as `f`. State is `(maxv, best_mv)`. -/
def loopW (f : Board → Int → Int → Int × Option Move) (b : Board) :
    List Move → Int × Option Move → Int → Int → Int × Option Move
  | [], st, _, _ => st
  | mv :: ms, st, alpha, beta =>
    let val := (f (make_move b mv) alpha beta).1
    let st2 := if val > st.1 then (val, some mv) else st
    let alpha2 := max alpha val
    if beta ≤ alpha2 then st2 else loopW f b ms st2 alpha2 beta

/-- The minimizing (`color=='black'`) loop body of `minimax`. -/
def loopB (f : Board → Int → Int → Int × Option Move) (b : Board) :
    List Move → Int × Option Move → Int → Int → Int × Option Move
  | [], st, _, _ => st
  | mv :: ms, st, alpha, beta =>
    let val := (f (make_move b mv) alpha beta).1
    let st2 := if val < st.1 then (val, some mv) else st
    let beta2 := min beta val
    if beta2 ≤ alpha then st2 else loopB f b ms st2 alpha beta2

/-- Python `minimax(b, depth, color, alpha, beta)`. -/
def minimax : Nat → Board → Color → Int → Int → Int × Option Move
  | 0, b, _, _, _ => (eval_board b, none)
  | d+1, b, c, alpha, beta =>
    let ms := legal_moves b c
    if ms.isEmpty then
      if in_check b c then ((if c = white then -999999 else 999999), none)
      else (0, none)
    else
      match c with
      | white => loopW (fun b2 a bt => minimax d b2 black a bt) b ms (-1000000000, none) alpha beta
      | black => loopB (fun b2 a bt => minimax d b2 white a bt) b ms (1000000000, none) alpha beta

/-- Modelled from the spec: the maximizing loop of an unpruned full
minimax — identical candidate order and strict-improvement update, no
alpha-beta window. -/
def loopWPlain (f : Board → Int × Option Move) (b : Board) :
    List Move → Int × Option Move → Int × Option Move
  | [], st => st
  | mv :: ms, st =>
    let val := (f (make_move b mv)).1
    loopWPlain f b ms (if val > st.1 then (val, some mv) else st)

/-- Modelled from the spec: the minimizing loop of an unpruned full minimax. -/
def loopBPlain (f : Board → Int × Option Move) (b : Board) :
    List Move → Int × Option Move → Int × Option Move
  | [], st => st
  | mv :: ms, st =>
    let val := (f (make_move b mv)).1
    loopBPlain f b ms (if val < st.1 then (val, some mv) else st)

/-- Modelled from the spec: unpruned full minimax over the same game
tree — same base cases, same mate/stalemate sentinels, same first-move
tie-break, but no pruning. -/
def minimax_plain : Nat → Board → Color → Int × Option Move
  | 0, b, _ => (eval_board b, none)
  | d+1, b, c =>
    let ms := legal_moves b c
    if ms.isEmpty then
      if in_check b c then ((if c = white then -999999 else 999999), none)
      else (0, none)
    else
      match c with
      | white => loopWPlain (fun b2 => minimax_plain d b2 black) b ms (-1000000000, none)
      | black => loopBPlain (fun b2 => minimax_plain d b2 white) b ms (1000000000, none)

/-- Child values examined by the maximizing loop of `minimax` when it is
entered with `beta = 10^9`: the value of each candidate move's child
call, with the running `alpha = max alpha val` update replayed. -/
def valsW (f : Board → Int → Int → Int × Option Move) (b : Board) :
    List Move → Int → List Int
  | [], _ => []
  | mv :: ms, alpha =>
    let val := (f (make_move b mv) alpha 1000000000).1
    val :: valsW f b ms (max alpha val)

/-- Child values examined by the minimizing loop of `minimax` when it is
entered with `alpha = -10^9`, with the running `beta` update replayed. -/
def valsB (f : Board → Int → Int → Int × Option Move) (b : Board) :
    List Move → Int → List Int
  | [], _ => []
  | mv :: ms, beta =>
    let val := (f (make_move b mv) (-1000000000) beta).1
    val :: valsB f b ms (min beta val)

/-- Scores that the top-level `minimax` call (sentinel window
`(-10^9, 10^9)`) computes for the successive legal moves, in candidate
order. -/
def searchVals : Nat → Board → Color → List Int
  | 0, _, _ => []
  | d+1, b, white =>
    valsW (fun b2 a bt => minimax d b2 black a bt) b (legal_moves b white) (-1000000000)
  | d+1, b, black =>
    valsB (fun b2 a bt => minimax d b2 white a bt) b (legal_moves b black) 1000000000

/-- An empty board (no kings: `in_check` reports check for both sides). -/
def empty_board : Board := fun _ _ => '.'

/-- A board with a single white pawn at `(x,y) = (0,6)`, one step from
row 7. -/
def pawn_board : Board :=
  fun yi xi =>
    (([ "........",
        "........",
        "........",
        "........",
        "........",
        "........",
        "P.......",
        "........" ].map String.toList).getD yi.val []).getD xi.val '.'

/-! ### Basic lemmas about the board model -/

lemma in_bounds_iff {x y : Int} : in_bounds x y = true ↔ 0 ≤ x ∧ x < 8 ∧ 0 ≤ y ∧ y < 8 := by
  simp [in_bounds]

lemma cell_oob (b : Board) {x y : Int} (h : ¬(0 ≤ x ∧ x < 8 ∧ 0 ≤ y ∧ y < 8)) :
    cell b x y = '.' :=
  dif_neg h

lemma cell_in (b : Board) {x y : Int} (h1 : 0 ≤ x) (h2 : x < 8) (h3 : 0 ≤ y) (h4 : y < 8) :
    cell b x y = b ⟨y.toNat, by omega⟩ ⟨x.toNat, by omega⟩ :=
  dif_pos ⟨h1, h2, h3, h4⟩

lemma cell_setCell (b : Board) (xs ys : Int) (p : Char) {x y : Int}
    (h : in_bounds x y = true) :
    cell (setCell b xs ys p) x y = if x = xs ∧ y = ys then p else cell b x y := by
  obtain ⟨h1, h2, h3, h4⟩ := in_bounds_iff.mp h
  rw [cell_in (setCell b xs ys p) h1 h2 h3 h4, cell_in b h1 h2 h3 h4]
  have hx : ((x.toNat : Nat) : Int) = x := Int.toNat_of_nonneg h1
  have hy : ((y.toNat : Nat) : Int) = y := Int.toNat_of_nonneg h3
  simp only [setCell, hx, hy]

lemma mem_allSquares {s : Int × Int} :
    s ∈ allSquares ↔ 0 ≤ s.1 ∧ s.1 < 8 ∧ 0 ≤ s.2 ∧ s.2 < 8 := by
  constructor
  · intro h
    rw [allSquares, List.mem_flatMap] at h
    obtain ⟨y, hy, h2⟩ := h
    rw [List.mem_map] at h2
    obtain ⟨x, hx, rfl⟩ := h2
    rw [List.mem_range] at hy hx
    refine ⟨?_, ?_, ?_, ?_⟩ <;> simp [Int.ofNat_lt] <;> omega
  · intro ⟨h1, h2, h3, h4⟩
    rw [allSquares, List.mem_flatMap]
    refine ⟨s.2.toNat, List.mem_range.mpr (by omega),
      List.mem_map.mpr ⟨s.1.toNat, List.mem_range.mpr (by omega), ?_⟩⟩
    obtain ⟨sx, sy⟩ := s
    simp only [Prod.mk.injEq, Int.ofNat_eq_coe]
    constructor <;> omega

/-! ### Pawn move characterization -/

lemma mem_ite_nil {C : Prop} [Decidable C] {l : List Move} {mv : Move} :
    mv ∈ (if C then l else []) ↔ C ∧ mv ∈ l := by
  split <;> simp_all

lemma pawn_moves_mem (b : Board) (x y : Int) (p : Char) (hp : p.toLower = 'p') (mv : Move) :
    mv ∈ gen_piece_moves b x y p ↔
      ((in_bounds x (y + pdir p) = true ∧ cell b x (y + pdir p) = '.' ∧
          mv = ((x,y),(x,y + pdir p))) ∨
        (in_bounds x (y + pdir p) = true ∧ cell b x (y + pdir p) = '.' ∧ y = pstart p ∧
          cell b x (y + pdir p * 2) = '.' ∧ mv = ((x,y),(x,y + pdir p * 2))) ∨
        (in_bounds (x + -1) (y + pdir p) = true ∧ cell b (x + -1) (y + pdir p) ≠ '.' ∧
          piece_color (cell b (x + -1) (y + pdir p)) ≠ piece_color p ∧
          mv = ((x,y),(x + -1, y + pdir p))) ∨
        (in_bounds (x + 1) (y + pdir p) = true ∧ cell b (x + 1) (y + pdir p) ≠ '.' ∧
          piece_color (cell b (x + 1) (y + pdir p)) ≠ piece_color p ∧
          mv = ((x,y),(x + 1, y + pdir p)))) := by
  rw [gen_piece_moves]
  simp only [hp, if_true, eq_self_iff_true, List.flatMap_cons, List.flatMap_nil,
    List.append_nil, List.mem_append, List.mem_cons, mem_ite_nil,
    List.mem_singleton, List.not_mem_nil, or_false, and_or_left, and_assoc, or_assoc]

lemma piece_color_opp {q p : Char} {s : Color} (hq : q ≠ '.') (hp : piece_color p = some s) :
    piece_color q ≠ piece_color p ↔ piece_color q = some (enemy s) := by
  rw [hp, piece_color, if_neg hq]
  cases s <;> by_cases h : q.isUpper <;> simp [h, enemy]

lemma is_white_iff {p : Char} {s : Color} (hp : piece_color p = some s) :
    is_white p = true ↔ s = white := by
  rw [piece_color] at hp
  by_cases h0 : p = '.'
  · rw [if_pos h0] at hp
    exact absurd hp (by simp)
  · rw [if_neg h0] at hp
    by_cases h : p.isUpper
    · rw [if_pos h] at hp
      cases hp
      simp [is_white, h]
    · rw [if_neg h] at hp
      cases hp
      simp only [is_white, h]
      constructor <;> intro hh <;> exact absurd hh (by simp)

lemma pdir_color {p : Char} {s : Color} (hp : piece_color p = some s) :
    pdir p = if s = white then -1 else 1 := by
  rw [pdir]
  by_cases h : is_white p = true
  · simp [h, (is_white_iff hp).mp h]
  · have hs : ¬ s = white := fun hw => h ((is_white_iff hp).mpr hw)
    simp [h, hs]

lemma pstart_color {p : Char} {s : Color} (hp : piece_color p = some s) :
    pstart p = if s = white then 6 else 1 := by
  rw [pstart]
  by_cases h : is_white p = true
  · simp [h, (is_white_iff hp).mp h]
  · have hs : ¬ s = white := fun hw => h ((is_white_iff hp).mpr hw)
    simp [h, hs]

/-! ### Claim C3: base case and terminal results of the search -/

/-- C3: `minimax` at depth 0 returns `(eval_board b, none)`, and at
depth > 0 with an empty legal-move list it returns `(-999999, none)`
when the side to move is White and in check, `(999999, none)` when the
side is Black and in check, and `(0, none)` otherwise (stalemate). -/
theorem minimax_base_cases (b : Board) (c : Color) (alpha beta : Int) (d : Nat) :
    minimax 0 b c alpha beta = (eval_board b, none) ∧
    (legal_moves b c = [] →
      minimax (d+1) b c alpha beta =
        if in_check b c then ((if c = white then -999999 else 999999), none)
        else (0, none)) := by
  refine ⟨rfl, fun h => ?_⟩
  simp [minimax, h]

/-- Witness for C3: the empty board has no legal moves (and no king, so
it counts as in check), giving the mate sentinel for White at depth 1. -/
theorem minimax_base_cases_witness :
    legal_moves empty_board white = [] ∧
    minimax 1 empty_board white (-1000000000) 1000000000 =
      (if in_check empty_board white then ((if white = white then -999999 else 999999), none)
       else (0, none)) :=
  ⟨by decide,
    (minimax_base_cases empty_board white (-1000000000) 1000000000 0).2 (by decide)⟩

/-! ### Claim C8: board orientation -/

/-- C8 counterexample: the initial board does not store White's back
rank at row index 0 — row 0 holds Black's pieces (lowercase). -/
theorem initial_board_row0_not_white :
    ¬ (∀ xi : Fin 8, is_white (initial_board 0 xi) = true) := by decide

/-- C8 (amended): the initial board stores Black's back rank at row
index 0 and White's at row index 7, and consistently White pawns move
toward decreasing rank index and Black pawns toward increasing rank
index. -/
theorem initial_board_orientation :
    (∀ xi : Fin 8, is_black (initial_board 0 xi) = true) ∧
    (∀ xi : Fin 8, is_white (initial_board 7 xi) = true) ∧
    (∀ (b : Board) (x y : Int) (mv : Move), mv ∈ gen_piece_moves b x y 'P' → mv.2.2 < y) ∧
    (∀ (b : Board) (x y : Int) (mv : Move), mv ∈ gen_piece_moves b x y 'p' → y < mv.2.2) := by
  refine ⟨by decide, by decide, ?_, ?_⟩
  · intro b x y mv h
    have hd : pdir 'P' = -1 := rfl
    rcases (pawn_moves_mem b x y 'P' rfl mv).mp h with
      ⟨-, -, rfl⟩ | ⟨-, -, -, -, rfl⟩ | ⟨-, -, -, rfl⟩ | ⟨-, -, -, rfl⟩ <;>
      simp [hd] <;> omega
  · intro b x y mv h
    have hd : pdir 'p' = 1 := rfl
    rcases (pawn_moves_mem b x y 'p' rfl mv).mp h with
      ⟨-, -, rfl⟩ | ⟨-, -, -, -, rfl⟩ | ⟨-, -, -, rfl⟩ | ⟨-, -, -, rfl⟩ <;>
      simp [hd] <;> omega

/-! ### Claims C4 and C10: the move applier -/

/-- C4 counterexample: the claim predicts that a White pawn moved to row
7 (not White's farthest row, which is 0) stays a pawn, i.e. that the
result is `setCell (setCell b from '.') to 'P'`; the code instead
promotes on either far row, placing a white queen. -/
theorem make_move_promotes_on_either_far_row :
    make_move pawn_board ((0,6),(0,7)) ≠ setCell (setCell pawn_board 0 6 '.') 0 7 'P' ∧
    cell (make_move pawn_board ((0,6),(0,7))) 0 7 = 'Q' := by
  constructor
  · decide
  · decide

/-- C4 (amended): for every board and in-bounds move, `make_move`
clears the source square (when it differs from the target), writes to
the target square the moved piece — or a queen of its color when the
moved piece is a pawn and the target row is 0 or 7 (either far row,
regardless of the pawn's side) — and leaves every other square
unchanged.  The input board itself is never mutated: the embedding is a
pure function, mirroring the `clone_board` copy in the source. -/
theorem make_move_frame (b : Board) (x1 y1 x2 y2 : Int)
    (hf : in_bounds x1 y1 = true) (ht : in_bounds x2 y2 = true) :
    (¬(x1 = x2 ∧ y1 = y2) → cell (make_move b ((x1,y1),(x2,y2))) x1 y1 = '.') ∧
    cell (make_move b ((x1,y1),(x2,y2))) x2 y2 =
      (if (cell b x1 y1).toLower = 'p' ∧ (y2 = 0 ∨ y2 = 7) then
        (if is_white (cell b x1 y1) then 'Q' else 'q')
      else cell b x1 y1) ∧
    (∀ x y : Int, ¬(x = x1 ∧ y = y1) → ¬(x = x2 ∧ y = y2) →
      cell (make_move b ((x1,y1),(x2,y2))) x y = cell b x y) := by
  simp only [make_move]
  by_cases hpro : (cell b x1 y1).toLower = 'p' ∧ (y2 = 0 ∨ y2 = 7) <;>
    [rw [if_pos hpro]; rw [if_neg hpro]] <;>
    [rw [if_pos hpro]; rw [if_neg hpro]] <;>
    refine ⟨?_, ?_, ?_⟩
  · intro hne
    rw [cell_setCell _ _ _ _ hf, if_neg hne, cell_setCell _ _ _ _ hf, if_pos ⟨rfl, rfl⟩]
  · rw [cell_setCell _ _ _ _ ht, if_pos ⟨rfl, rfl⟩]
  · intro x y hne1 hne2
    by_cases hb : in_bounds x y = true
    · rw [cell_setCell _ _ _ _ hb, if_neg hne2, cell_setCell _ _ _ _ hb, if_neg hne1]
    · rw [in_bounds_iff] at hb
      rw [cell_oob _ hb, cell_oob _ hb]
  · intro hne
    rw [cell_setCell _ _ _ _ hf, if_neg hne, cell_setCell _ _ _ _ hf, if_pos ⟨rfl, rfl⟩]
  · rw [cell_setCell _ _ _ _ ht, if_pos ⟨rfl, rfl⟩]
  · intro x y hne1 hne2
    by_cases hb : in_bounds x y = true
    · rw [cell_setCell _ _ _ _ hb, if_neg hne2, cell_setCell _ _ _ _ hb, if_neg hne1]
    · rw [in_bounds_iff] at hb
      rw [cell_oob _ hb, cell_oob _ hb]

/-- Witness for C4 (amended): the promotion move of the lone white pawn,
evaluated at the source square, the target square, and a frame square. -/
theorem make_move_frame_witness :
    cell (make_move pawn_board ((0,6),(0,7))) 0 6 = '.' ∧
    cell (make_move pawn_board ((0,6),(0,7))) 0 7 =
      (if (cell pawn_board 0 6).toLower = 'p' ∧ ((7:Int) = 0 ∨ (7:Int) = 7) then
        (if is_white (cell pawn_board 0 6) then 'Q' else 'q')
      else cell pawn_board 0 6) ∧
    cell (make_move pawn_board ((0,6),(0,7))) 3 3 = cell pawn_board 3 3 :=
  ⟨(make_move_frame pawn_board 0 6 0 7 (by decide) (by decide)).1 (by decide),
   (make_move_frame pawn_board 0 6 0 7 (by decide) (by decide)).2.1,
   (make_move_frame pawn_board 0 6 0 7 (by decide) (by decide)).2.2 3 3 (by decide) (by decide)⟩

/-- C10: applying a move whose source square is empty is well defined
and total: the result equals the input board except that the target
square is erased (any piece standing there disappears). -/
theorem make_move_empty_from (b : Board) (x1 y1 x2 y2 : Int)
    (hf : in_bounds x1 y1 = true) (ht : in_bounds x2 y2 = true)
    (he : cell b x1 y1 = '.') (x y : Int) (hxy : in_bounds x y = true) :
    cell (make_move b ((x1,y1),(x2,y2))) x y =
      if x = x2 ∧ y = y2 then '.' else cell b x y := by
  have hne : ¬ ((cell b x1 y1).toLower = 'p' ∧ (y2 = 0 ∨ y2 = 7)) := by
    rw [he]
    rintro ⟨hc, -⟩
    exact absurd hc (by decide)
  simp only [make_move]
  rw [if_neg hne, he]
  rw [cell_setCell _ _ _ _ hxy, cell_setCell _ _ _ _ hxy]
  by_cases h2 : x = x2 ∧ y = y2
  · rw [if_pos h2, if_pos h2]
  · rw [if_neg h2, if_neg h2]
    by_cases h1 : x = x1 ∧ y = y1
    · rw [if_pos h1, ← he]
      obtain ⟨rfl, rfl⟩ := h1
      rfl
    · rw [if_neg h1]

/-- Witness for C10: moving "from" the empty square (3,3) of the initial
board to (0,6) erases the pawn standing on (0,6). -/
theorem make_move_empty_from_witness :
    cell (make_move initial_board ((3,3),(0,6))) 0 6 =
      if (0:Int) = 0 ∧ (6:Int) = 6 then '.' else cell initial_board 0 6 :=
  make_move_empty_from initial_board 3 3 0 6 (by decide) (by decide) (by decide) 0 6 (by decide)

/-! ### Claim C5: pawn move generation -/

/-- C5: for a pawn of side `s` standing at in-bounds `(x,y)`, the move
generator produces exactly: the single forward step when the (on-board)
destination is empty; the double step when the pawn is on its side's
starting row and both the intervening and destination cells are empty;
and each forward-diagonal capture exactly when that destination is in
bounds and occupied by the opposite side.  Forward is row `-1` for
White and `+1` for Black. -/
theorem pawn_move_generation (b : Board) (x y : Int)
    (h1 : 0 ≤ x) (h2 : x < 8) (h3 : 0 ≤ y) (h4 : y < 8)
    (p : Char) (hcell : cell b x y = p) (hp : p = 'P' ∨ p = 'p')
    (s : Color) (hs : piece_color p = some s) (mv : Move) :
    mv ∈ gen_piece_moves b x y p ↔
      ((in_bounds x (y + (if s = white then -1 else 1)) = true ∧
          cell b x (y + (if s = white then -1 else 1)) = '.' ∧
          mv = ((x,y),(x, y + (if s = white then -1 else 1)))) ∨
        (y = (if s = white then 6 else 1) ∧
          cell b x (y + (if s = white then -1 else 1)) = '.' ∧
          cell b x (y + (if s = white then -1 else 1) * 2) = '.' ∧
          mv = ((x,y),(x, y + (if s = white then -1 else 1) * 2))) ∨
        (in_bounds (x + -1) (y + (if s = white then -1 else 1)) = true ∧
          piece_color (cell b (x + -1) (y + (if s = white then -1 else 1))) = some (enemy s) ∧
          mv = ((x,y),(x + -1, y + (if s = white then -1 else 1)))) ∨
        (in_bounds (x + 1) (y + (if s = white then -1 else 1)) = true ∧
          piece_color (cell b (x + 1) (y + (if s = white then -1 else 1))) = some (enemy s) ∧
          mv = ((x,y),(x + 1, y + (if s = white then -1 else 1))))) := by
  have hp' : p.toLower = 'p' := by rcases hp with rfl | rfl <;> rfl
  have hd : pdir p = if s = white then -1 else 1 := pdir_color hs
  have hst : pstart p = if s = white then 6 else 1 := pstart_color hs
  rw [pawn_moves_mem b x y p hp' mv, hd, hst]
  constructor
  · rintro (⟨ha, hb, rfl⟩ | ⟨ha, hb, hc, hdd, rfl⟩ | ⟨ha, hb, hc, rfl⟩ | ⟨ha, hb, hc, rfl⟩)
    · exact Or.inl ⟨ha, hb, rfl⟩
    · exact Or.inr (Or.inl ⟨hc, hb, hdd, rfl⟩)
    · exact Or.inr (Or.inr (Or.inl ⟨ha, (piece_color_opp hb hs).mp hc, rfl⟩))
    · exact Or.inr (Or.inr (Or.inr ⟨ha, (piece_color_opp hb hs).mp hc, rfl⟩))
  · rintro (⟨ha, hb, rfl⟩ | ⟨ha, hb, hc, rfl⟩ | ⟨ha, hb, rfl⟩ | ⟨ha, hb, rfl⟩)
    · exact Or.inl ⟨ha, hb, rfl⟩
    · have hbound : in_bounds x (y + (if s = white then -1 else 1)) = true := by
        rw [in_bounds_iff]
        cases s <;> simp only [reduceCtorEq, if_true, if_false, reduceIte] at ha ⊢ <;> omega
      exact Or.inr (Or.inl ⟨hbound, hb, ha, hc, rfl⟩)
    · have hne : cell b (x + -1) (y + (if s = white then -1 else 1)) ≠ '.' := by
        intro h0
        rw [h0] at hb
        exact absurd hb (by simp [piece_color])
      exact Or.inr (Or.inr (Or.inl ⟨ha, hne, (piece_color_opp hne hs).mpr hb, rfl⟩))
    · have hne : cell b (x + 1) (y + (if s = white then -1 else 1)) ≠ '.' := by
        intro h0
        rw [h0] at hb
        exact absurd hb (by simp [piece_color])
      exact Or.inr (Or.inr (Or.inr ⟨ha, hne, (piece_color_opp hne hs).mpr hb, rfl⟩))

/-- Witness for C5: the white pawn of `pawn_board` at (0,6) has its
single forward step to (0,5). -/
theorem pawn_move_generation_witness :
    cell pawn_board 0 6 = 'P' ∧ ((0,6),(0,5)) ∈ gen_piece_moves pawn_board 0 6 'P' :=
  ⟨by decide,
    (pawn_move_generation pawn_board 0 6 (by decide) (by decide) (by decide) (by decide)
        'P' (by decide) (Or.inl rfl) white (by decide) ((0,6),(0,5))).mpr
      (Or.inl ⟨by decide, by decide, rfl⟩)⟩

/-! ### Claim C2: the check detector -/

/-- C2: `in_check` reports check whenever no king of the side is on the
board, and otherwise (with the king found at `(kx,ky)`) it is true
exactly when some pseudo-legal move of the opposing side has the king
square as its destination. -/
theorem in_check_characterization (b : Board) (c : Color) :
    ((∀ yi xi : Fin 8, b yi xi ≠ (if c = white then 'K' else 'k')) → in_check b c = true) ∧
    (∀ kx ky : Int, find_king b c = some (kx, ky) →
      (in_check b c = true ↔ ∃ mv ∈ gen_moves b (enemy c), mv.2 = (kx, ky))) := by
  constructor
  · intro hno
    have hfk : find_king b c = none := by
      rw [find_king]
      apply List.find?_eq_none.mpr
      intro s hs
      obtain ⟨h1, h2, h3, h4⟩ := mem_allSquares.mp hs
      rw [cell_in b h1 h2 h3 h4]
      simpa using hno _ _
    rw [in_check, hfk]
  · intro kx ky hk
    rw [in_check, hk]
    simp only [List.any_eq_true, decide_eq_true_eq, Prod.ext_iff]

/-- Witness for C2: the empty board has no white king, so White is in
check there; on the initial board the white king is found at (4,7), and
the characterization applies. -/
theorem in_check_characterization_witness :
    in_check empty_board white = true ∧
    (in_check initial_board white = true ↔
      ∃ mv ∈ gen_moves initial_board (enemy white), mv.2 = ((4:Int), (7:Int))) :=
  ⟨(in_check_characterization empty_board white).1 (by decide),
   (in_check_characterization initial_board white).2 4 7 (by decide)⟩

/-! ### Claim C7: the standard initial position -/

/-- C7: from the standard initial position both sides have exactly 20
pseudo-legal moves, and the legal-move list coincides with the
pseudo-legal list for both sides (no opening move exposes the mover's
own king). -/
theorem initial_position_moves :
    (gen_moves initial_board white).length = 20 ∧
    (gen_moves initial_board black).length = 20 ∧
    legal_moves initial_board white = gen_moves initial_board white ∧
    legal_moves initial_board black = gen_moves initial_board black :=
  ⟨by decide, by decide, by decide, by decide⟩

/-! ### Claim C9: soundness invariants of the pseudo-legal generator -/

lemma isUpper_false_of_isLower {p : Char} (hl : p.isLower = true) : p.isUpper = false := by
  simp only [Char.isLower, Char.isUpper, decide_eq_true_eq, Bool.and_eq_true] at *
  obtain ⟨l1, l2⟩ := hl
  have n1 : (97:UInt32).toNat ≤ p.val.toNat := l1
  have n2 : p.val.toNat ≤ (122:UInt32).toNat := l2
  have e1 : (97:UInt32).toNat = 97 := rfl
  have e2 : (122:UInt32).toNat = 122 := rfl
  rw [Bool.eq_false_iff]
  simp only [ne_eq, Bool.and_eq_true, decide_eq_true_eq, not_and]
  intro h1 h2
  have n3 : p.val.toNat ≤ (90:UInt32).toNat := h2
  have e3 : (90:UInt32).toNat = 90 := rfl
  omega

lemma slide_go_mem {b : Board} {p : Char} {sx sy dx dy : Int} :
    ∀ (n : Nat) (nx ny : Int) (mv : Move), mv ∈ slide_go b p sx sy dx dy n nx ny →
      mv.1 = (sx, sy) ∧ in_bounds mv.2.1 mv.2.2 = true ∧
        (cell b mv.2.1 mv.2.2 = '.' ∨ piece_color (cell b mv.2.1 mv.2.2) ≠ piece_color p) := by
  intro n
  induction n with
  | zero => intro nx ny mv h; exact absurd h (List.not_mem_nil mv)
  | succ n ih =>
    intro nx ny mv h
    rw [slide_go] at h
    by_cases hb : in_bounds nx ny = true
    · rw [if_pos hb] at h
      by_cases hc : cell b nx ny = '.'
      · rw [if_pos hc] at h
        rcases List.mem_cons.mp h with rfl | h2
        · exact ⟨rfl, hb, Or.inl hc⟩
        · exact ih (nx+dx) (ny+dy) mv h2
      · rw [if_neg hc] at h
        by_cases hq : piece_color (cell b nx ny) ≠ piece_color p
        · rw [if_pos hq] at h
          rw [List.mem_singleton] at h
          subst h
          exact ⟨rfl, hb, Or.inr hq⟩
        · rw [if_neg hq] at h
          exact absurd h (List.not_mem_nil mv)
    · rw [if_neg hb] at h
      exact absurd h (List.not_mem_nil mv)

lemma gen_piece_moves_spec (b : Board) (x y : Int) (p : Char)
    (hx : in_bounds x y = true) (mv : Move) (h : mv ∈ gen_piece_moves b x y p) :
    mv.1 = (x, y) ∧ in_bounds mv.2.1 mv.2.2 = true ∧
      (cell b mv.2.1 mv.2.2 = '.' ∨ piece_color (cell b mv.2.1 mv.2.2) ≠ piece_color p) := by
  by_cases hp : p.toLower = 'p'
  · obtain ⟨hx1, hx2, hx3, hx4⟩ := in_bounds_iff.mp hx
    rcases (pawn_moves_mem b x y p hp mv).mp h with
      ⟨ha, hb, rfl⟩ | ⟨ha, hb, hc, hdd, rfl⟩ | ⟨ha, hb, hc, rfl⟩ | ⟨ha, hb, hc, rfl⟩
    · exact ⟨rfl, ha, Or.inl hb⟩
    · refine ⟨rfl, ?_, Or.inl hdd⟩
      rw [in_bounds_iff]
      by_cases hw : is_white p = true <;>
        simp [pdir, pstart, hw] at hc ⊢ <;> omega
    · refine ⟨rfl, ha, ?_⟩
      by_cases h0 : cell b (x + -1) (y + pdir p) = '.'
      · exact Or.inl h0
      · exact Or.inr hc
    · refine ⟨rfl, ha, ?_⟩
      by_cases h0 : cell b (x + 1) (y + pdir p) = '.'
      · exact Or.inl h0
      · exact Or.inr hc
  · rw [gen_piece_moves] at h
    simp only [if_neg hp] at h
    by_cases hn : p.toLower = 'n'
    · rw [if_pos hn, List.mem_flatMap] at h
      obtain ⟨d, -, hbody⟩ := h
      rw [mem_ite_nil] at hbody
      obtain ⟨⟨hb1, hb2⟩, hmem⟩ := hbody
      rw [List.mem_singleton] at hmem
      subst hmem
      exact ⟨rfl, hb1, hb2⟩
    · rw [if_neg hn] at h
      by_cases hbrq : p.toLower = 'b' ∨ p.toLower = 'r' ∨ p.toLower = 'q'
      · rw [if_pos hbrq, List.mem_flatMap] at h
        obtain ⟨d, -, hbody⟩ := h
        exact slide_go_mem 8 (x+d.1) (y+d.2) mv hbody
      · rw [if_neg hbrq] at h
        by_cases hk : p.toLower = 'k'
        · rw [if_pos hk, List.mem_flatMap] at h
          obtain ⟨d, -, hbody⟩ := h
          rw [mem_ite_nil] at hbody
          obtain ⟨⟨hb1, hb2⟩, hmem⟩ := hbody
          rw [List.mem_singleton] at hmem
          subst hmem
          exact ⟨rfl, hb1, hb2⟩
        · rw [if_neg hk] at h
          exact absurd h (List.not_mem_nil mv)

/-- C9: every move produced by the pseudo-legal generator has in-bounds
source and destination coordinates, its source square holds a piece of
the requested side, and its destination square is either empty or holds
a piece of the opposite side. -/
theorem gen_moves_invariants (b : Board) (c : Color) (mv : Move) (h : mv ∈ gen_moves b c) :
    in_bounds mv.1.1 mv.1.2 = true ∧ in_bounds mv.2.1 mv.2.2 = true ∧
    cell b mv.1.1 mv.1.2 ≠ '.' ∧ piece_color (cell b mv.1.1 mv.1.2) = some c ∧
    (cell b mv.2.1 mv.2.2 = '.' ∨ piece_color (cell b mv.2.1 mv.2.2) = some (enemy c)) := by
  rw [gen_moves, List.mem_flatMap] at h
  obtain ⟨s, hs, hbody⟩ := h
  obtain ⟨hs1, hs2, hs3, hs4⟩ := mem_allSquares.mp hs
  have hsb : in_bounds s.1 s.2 = true := in_bounds_iff.mpr ⟨hs1, hs2, hs3, hs4⟩
  by_cases h0 : cell b s.1 s.2 = '.'
  · rw [if_pos h0] at hbody
    exact absurd hbody (List.not_mem_nil mv)
  · rw [if_neg h0] at hbody
    have hcol : piece_color (cell b s.1 s.2) = some c ∧
        mv ∈ gen_piece_moves b s.1 s.2 (cell b s.1 s.2) := by
      cases c
      · by_cases hw : is_white (cell b s.1 s.2) = true
        · rw [if_neg (by simp [hw]), if_neg (by simp)] at hbody
          refine ⟨?_, hbody⟩
          rw [piece_color, if_neg h0, if_pos (show (cell b s.1 s.2).isUpper = true from hw)]
        · rw [if_pos ⟨rfl, by simp [hw]⟩] at hbody
          exact absurd hbody (List.not_mem_nil mv)
      · by_cases hbl : is_black (cell b s.1 s.2) = true
        · rw [if_neg (by simp), if_neg (by simp [hbl])] at hbody
          refine ⟨?_, hbody⟩
          have hupf : (cell b s.1 s.2).isUpper = false :=
            isUpper_false_of_isLower (show (cell b s.1 s.2).isLower = true from hbl)
          rw [piece_color, if_neg h0, if_neg (by simp [hupf])]
        · rw [if_neg (by simp), if_pos ⟨rfl, by simp [hbl]⟩] at hbody
          exact absurd hbody (List.not_mem_nil mv)
    obtain ⟨hcol, hmem⟩ := hcol
    obtain ⟨hfrom, hto, hdest⟩ := gen_piece_moves_spec b s.1 s.2 _ hsb mv hmem
    have hfx : mv.1.1 = s.1 := by rw [hfrom]
    have hfy : mv.1.2 = s.2 := by rw [hfrom]
    rw [hfx, hfy]
    refine ⟨hsb, hto, h0, hcol, ?_⟩
    rcases hdest with h1 | h2
    · exact Or.inl h1
    · by_cases hq : cell b mv.2.1 mv.2.2 = '.'
      · exact Or.inl hq
      · exact Or.inr ((piece_color_opp hq hcol).mp h2)

/-- Witness for C9: White's pawn move ((0,6),(0,5)) on the initial board. -/
theorem gen_moves_invariants_witness :
    in_bounds (0:Int) 6 = true ∧ in_bounds (0:Int) 5 = true ∧
    cell initial_board 0 6 ≠ '.' ∧ piece_color (cell initial_board 0 6) = some white ∧
    (cell initial_board 0 5 = '.' ∨ piece_color (cell initial_board 0 5) = some (enemy white)) :=
  gen_moves_invariants initial_board white ((0,6),(0,5)) (by decide)

/-! ### Value bounds -/

lemma VAL_bound (p : Char) : 0 ≤ VAL p ∧ VAL p ≤ 20000 := by
  rw [VAL]
  split_ifs <;> norm_num

lemma eval_step_bound (b : Board) (s : Int) (sq : Int × Int) :
    s - 20000 ≤ eval_step b s sq ∧ eval_step b s sq ≤ s + 20000 := by
  rw [eval_step]
  obtain ⟨v1, v2⟩ := VAL_bound (cell b sq.1 sq.2).toUpper
  by_cases h : cell b sq.1 sq.2 ≠ '.' <;>
    by_cases hw : is_white (cell b sq.1 sq.2) = true <;>
    simp [h, hw] <;> omega

lemma foldl_eval_bound (b : Board) (l : List (Int × Int)) :
    ∀ s : Int,
      s - 20000 * l.length ≤ List.foldl (eval_step b) s l ∧
      List.foldl (eval_step b) s l ≤ s + 20000 * l.length := by
  induction l with
  | nil => intro s; simp
  | cons a l ih =>
    intro s
    rw [List.foldl_cons]
    obtain ⟨h1, h2⟩ := eval_step_bound b s a
    obtain ⟨h3, h4⟩ := ih (eval_step b s a)
    rw [List.length_cons]
    push_cast
    constructor <;> omega

lemma eval_board_bound (b : Board) :
    -1280000 ≤ eval_board b ∧ eval_board b ≤ 1280000 := by
  obtain ⟨h1, h2⟩ := foldl_eval_bound b allSquares 0
  have hlen : allSquares.length = 64 := rfl
  rw [hlen] at h1 h2
  rw [eval_board]
  omega

lemma loopW_fst_bound (f : Board → Int → Int → Int × Option Move) (b : Board)
    (hf : ∀ b2 a bt, -1280000 ≤ (f b2 a bt).1 ∧ (f b2 a bt).1 ≤ 1280000) :
    ∀ (ms : List Move) (st : Int × Option Move) (alpha beta : Int),
      -1280000 ≤ st.1 → st.1 ≤ 1280000 →
      -1280000 ≤ (loopW f b ms st alpha beta).1 ∧ (loopW f b ms st alpha beta).1 ≤ 1280000 := by
  intro ms
  induction ms with
  | nil => intro st alpha beta h1 h2; exact ⟨h1, h2⟩
  | cons mv ms ih =>
    intro st alpha beta h1 h2
    obtain ⟨hv1, hv2⟩ := hf (make_move b mv) alpha beta
    simp only [loopW]
    split_ifs with hA hB hB
    · exact ⟨hv1, hv2⟩
    · exact ⟨h1, h2⟩
    · exact ih _ _ _ hv1 hv2
    · exact ih _ _ _ h1 h2

lemma loopB_fst_bound (f : Board → Int → Int → Int × Option Move) (b : Board)
    (hf : ∀ b2 a bt, -1280000 ≤ (f b2 a bt).1 ∧ (f b2 a bt).1 ≤ 1280000) :
    ∀ (ms : List Move) (st : Int × Option Move) (alpha beta : Int),
      -1280000 ≤ st.1 → st.1 ≤ 1280000 →
      -1280000 ≤ (loopB f b ms st alpha beta).1 ∧ (loopB f b ms st alpha beta).1 ≤ 1280000 := by
  intro ms
  induction ms with
  | nil => intro st alpha beta h1 h2; exact ⟨h1, h2⟩
  | cons mv ms ih =>
    intro st alpha beta h1 h2
    obtain ⟨hv1, hv2⟩ := hf (make_move b mv) alpha beta
    simp only [loopB]
    split_ifs with hA hB hB
    · exact ⟨hv1, hv2⟩
    · exact ⟨h1, h2⟩
    · exact ih _ _ _ hv1 hv2
    · exact ih _ _ _ h1 h2

lemma minimax_fst_bound :
    ∀ (d : Nat) (b : Board) (c : Color) (al be : Int),
      -1280000 ≤ (minimax d b c al be).1 ∧ (minimax d b c al be).1 ≤ 1280000 := by
  intro d
  induction d with
  | zero => intro b c al be; exact eval_board_bound b
  | succ d ih =>
    intro b c al be
    cases c
    · rw [minimax.eq_2]
      by_cases hemp : (legal_moves b white).isEmpty = true
      · simp only [hemp, if_true]
        split_ifs <;> norm_num
      · obtain ⟨mv, ms2, hms⟩ : ∃ mv ms2, legal_moves b white = mv :: ms2 := by
          cases hls : legal_moves b white with
          | nil => rw [hls] at hemp; simp at hemp
          | cons a l => exact ⟨a, l, rfl⟩
        rw [hms]
        simp only [List.isEmpty_cons, Bool.false_eq_true, if_false]
        simp only [loopW]
        obtain ⟨hv1, hv2⟩ := ih (make_move b mv) black al be
        have hgt : (minimax d (make_move b mv) black al be).1 > (-1000000000 : Int) := by omega
        rw [if_pos hgt]
        split_ifs with hA
        · exact ⟨hv1, hv2⟩
        · exact loopW_fst_bound _ b (fun b2 a bt => ih b2 black a bt) _ _ _ _ hv1 hv2
    · rw [minimax.eq_3]
      by_cases hemp : (legal_moves b black).isEmpty = true
      · simp only [hemp, if_true]
        split_ifs <;> norm_num
      · obtain ⟨mv, ms2, hms⟩ : ∃ mv ms2, legal_moves b black = mv :: ms2 := by
          cases hls : legal_moves b black with
          | nil => rw [hls] at hemp; simp at hemp
          | cons a l => exact ⟨a, l, rfl⟩
        rw [hms]
        simp only [List.isEmpty_cons, Bool.false_eq_true, if_false]
        simp only [loopB]
        obtain ⟨hv1, hv2⟩ := ih (make_move b mv) white al be
        have hlt : (minimax d (make_move b mv) white al be).1 < (1000000000 : Int) := by omega
        rw [if_pos hlt]
        split_ifs with hA
        · exact ⟨hv1, hv2⟩
        · exact loopB_fst_bound _ b (fun b2 a bt => ih b2 white a bt) _ _ _ _ hv1 hv2

/-! ### Alpha-beta versus plain minimax -/

lemma loopBPlain_fst_le (fp : Board → Int × Option Move) (b : Board) :
    ∀ (ms : List Move) (st : Int × Option Move), (loopBPlain fp b ms st).1 ≤ st.1 := by
  intro ms
  induction ms with
  | nil => intro st; exact le_refl _
  | cons mv ms ih =>
    intro st
    simp only [loopBPlain]
    split_ifs with h
    · exact le_trans (ih _) (le_of_lt h)
    · exact ih st

lemma loopWPlain_fst_ge (fp : Board → Int × Option Move) (b : Board) :
    ∀ (ms : List Move) (st : Int × Option Move), st.1 ≤ (loopWPlain fp b ms st).1 := by
  intro ms
  induction ms with
  | nil => intro st; exact le_refl _
  | cons mv ms ih =>
    intro st
    simp only [loopWPlain]
    split_ifs with h
    · exact le_trans (le_of_lt h) (ih _)
    · exact ih st

lemma loopB_vs_plain (f : Board → Int → Int → Int × Option Move) (fp : Board → Int × Option Move)
    (b : Board) (hfv : ∀ b2 a bt, (f b2 a bt).1 = (fp b2).1) :
    ∀ (ms : List Move) (st : Int × Option Move) (alpha beta : Int), beta = st.1 →
      (loopB f b ms st alpha beta).1 = (loopBPlain fp b ms st).1 ∨
      ((loopBPlain fp b ms st).1 ≤ (loopB f b ms st alpha beta).1 ∧
        (loopB f b ms st alpha beta).1 ≤ alpha) := by
  intro ms
  induction ms with
  | nil => intro st alpha beta hb; left; rfl
  | cons mv ms ih =>
    intro st alpha beta hb
    simp only [loopB, loopBPlain]
    rw [hfv (make_move b mv) alpha beta]
    by_cases hlt : (fp (make_move b mv)).1 < st.1
    · rw [if_pos hlt]
      have hmin : min beta (fp (make_move b mv)).1 = (fp (make_move b mv)).1 := by
        rw [hb]; exact min_eq_right (le_of_lt hlt)
      rw [hmin]
      by_cases hcut : (fp (make_move b mv)).1 ≤ alpha
      · rw [if_pos hcut]
        exact Or.inr ⟨loopBPlain_fst_le fp b ms _, hcut⟩
      · rw [if_neg hcut]
        exact ih _ alpha _ rfl
    · rw [if_neg hlt]
      have hmin : min beta (fp (make_move b mv)).1 = st.1 := by
        rw [hb]; exact min_eq_left (not_lt.mp hlt)
      rw [hmin]
      by_cases hcut : st.1 ≤ alpha
      · rw [if_pos hcut]
        exact Or.inr ⟨loopBPlain_fst_le fp b ms st, hcut⟩
      · rw [if_neg hcut]
        exact ih st alpha st.1 rfl

lemma loopW_vs_plain (f : Board → Int → Int → Int × Option Move) (fp : Board → Int × Option Move)
    (b : Board) (hfv : ∀ b2 a bt, (f b2 a bt).1 = (fp b2).1) :
    ∀ (ms : List Move) (st : Int × Option Move) (alpha beta : Int), alpha = st.1 →
      (loopW f b ms st alpha beta).1 = (loopWPlain fp b ms st).1 ∨
      ((loopW f b ms st alpha beta).1 ≤ (loopWPlain fp b ms st).1 ∧
        beta ≤ (loopW f b ms st alpha beta).1) := by
  intro ms
  induction ms with
  | nil => intro st alpha beta ha; left; rfl
  | cons mv ms ih =>
    intro st alpha beta ha
    simp only [loopW, loopWPlain]
    rw [hfv (make_move b mv) alpha beta]
    by_cases hgt : (fp (make_move b mv)).1 > st.1
    · rw [if_pos hgt]
      have hmax : max alpha (fp (make_move b mv)).1 = (fp (make_move b mv)).1 := by
        rw [ha]; exact max_eq_right (le_of_lt hgt)
      rw [hmax]
      by_cases hcut : beta ≤ (fp (make_move b mv)).1
      · rw [if_pos hcut]
        exact Or.inr ⟨loopWPlain_fst_ge fp b ms _, hcut⟩
      · rw [if_neg hcut]
        exact ih _ _ beta rfl
    · rw [if_neg hgt]
      have hmax : max alpha (fp (make_move b mv)).1 = st.1 := by
        rw [ha]; exact max_eq_left (not_lt.mp hgt)
      rw [hmax]
      by_cases hcut : beta ≤ st.1
      · rw [if_pos hcut]
        exact Or.inr ⟨loopWPlain_fst_ge fp b ms st, hcut⟩
      · rw [if_neg hcut]
        exact ih st st.1 beta rfl

lemma minimax1_black_rel (b : Board) (alpha : Int) :
    (minimax 1 b black alpha 1000000000).1 = (minimax_plain 1 b black).1 ∨
    ((minimax_plain 1 b black).1 ≤ (minimax 1 b black alpha 1000000000).1 ∧
      (minimax 1 b black alpha 1000000000).1 ≤ alpha) := by
  rw [minimax.eq_3, minimax_plain.eq_3]
  by_cases hemp : (legal_moves b black).isEmpty = true
  · rw [if_pos hemp, if_pos hemp]
    left
    rfl
  · rw [if_neg hemp, if_neg hemp]
    exact loopB_vs_plain (fun b2 a bt => minimax 0 b2 white a bt)
      (fun b2 => minimax_plain 0 b2 white) b (fun b2 a bt => rfl) (legal_moves b black)
      (1000000000, none) alpha 1000000000 rfl

lemma minimax1_white_rel (b : Board) (beta : Int) :
    (minimax 1 b white (-1000000000) beta).1 = (minimax_plain 1 b white).1 ∨
    ((minimax 1 b white (-1000000000) beta).1 ≤ (minimax_plain 1 b white).1 ∧
      beta ≤ (minimax 1 b white (-1000000000) beta).1) := by
  rw [minimax.eq_2, minimax_plain.eq_2]
  by_cases hemp : (legal_moves b white).isEmpty = true
  · rw [if_pos hemp, if_pos hemp]
    left
    rfl
  · rw [if_neg hemp, if_neg hemp]
    exact loopW_vs_plain (fun b2 a bt => minimax 0 b2 black a bt)
      (fun b2 => minimax_plain 0 b2 black) b (fun b2 a bt => rfl) (legal_moves b white)
      (-1000000000, none) (-1000000000) beta rfl

lemma loopW_root_eq (f : Board → Int → Int → Int × Option Move) (fp : Board → Int × Option Move)
    (b : Board)
    (hrel : ∀ b2 alpha, (f b2 alpha 1000000000).1 = (fp b2).1 ∨
      ((fp b2).1 ≤ (f b2 alpha 1000000000).1 ∧ (f b2 alpha 1000000000).1 ≤ alpha))
    (hbound : ∀ b2 a bt, -1280000 ≤ (f b2 a bt).1 ∧ (f b2 a bt).1 ≤ 1280000) :
    ∀ (ms : List Move) (st : Int × Option Move) (alpha : Int),
      alpha = st.1 → st.1 < 1000000000 →
      loopW f b ms st alpha 1000000000 = loopWPlain fp b ms st := by
  intro ms
  induction ms with
  | nil => intro st alpha h1 h2; rfl
  | cons mv ms ih =>
    intro st alpha h1 h2
    simp only [loopW, loopWPlain]
    obtain ⟨hb1, hb2⟩ := hbound (make_move b mv) alpha 1000000000
    rcases hrel (make_move b mv) alpha with heq | ⟨hle, hcut⟩
    · have hb2p : (fp (make_move b mv)).1 ≤ 1280000 := by omega
      have hb1p : -1280000 ≤ (fp (make_move b mv)).1 := by omega
      rw [heq]
      by_cases hgt : (fp (make_move b mv)).1 > st.1
      · rw [if_pos hgt]
        have hmax : max alpha (fp (make_move b mv)).1 = (fp (make_move b mv)).1 := by
          rw [h1]; exact max_eq_right (le_of_lt hgt)
        rw [hmax]
        rw [if_neg (show ¬ (1000000000 : Int) ≤ (fp (make_move b mv)).1 by omega)]
        exact ih _ _ rfl (by omega)
      · rw [if_neg hgt]
        have hmax : max alpha (fp (make_move b mv)).1 = st.1 := by
          rw [h1]; exact max_eq_left (not_lt.mp hgt)
        rw [hmax]
        rw [if_neg (show ¬ (1000000000 : Int) ≤ st.1 by omega)]
        exact ih st st.1 rfl h2
    · have hngt : ¬ (f (make_move b mv) alpha 1000000000).1 > st.1 := by omega
      have hngtp : ¬ (fp (make_move b mv)).1 > st.1 := by omega
      rw [if_neg hngt, if_neg hngtp]
      have hmax : max alpha (f (make_move b mv) alpha 1000000000).1 = st.1 := by
        rw [max_eq_left (show (f (make_move b mv) alpha 1000000000).1 ≤ alpha by omega)]
        exact h1
      rw [hmax]
      rw [if_neg (show ¬ (1000000000 : Int) ≤ st.1 by omega)]
      exact ih st st.1 rfl h2

lemma loopB_root_eq (f : Board → Int → Int → Int × Option Move) (fp : Board → Int × Option Move)
    (b : Board)
    (hrel : ∀ b2 beta, (f b2 (-1000000000) beta).1 = (fp b2).1 ∨
      ((f b2 (-1000000000) beta).1 ≤ (fp b2).1 ∧ beta ≤ (f b2 (-1000000000) beta).1))
    (hbound : ∀ b2 a bt, -1280000 ≤ (f b2 a bt).1 ∧ (f b2 a bt).1 ≤ 1280000) :
    ∀ (ms : List Move) (st : Int × Option Move) (beta : Int),
      beta = st.1 → -1000000000 < st.1 →
      loopB f b ms st (-1000000000) beta = loopBPlain fp b ms st := by
  intro ms
  induction ms with
  | nil => intro st beta h1 h2; rfl
  | cons mv ms ih =>
    intro st beta h1 h2
    simp only [loopB, loopBPlain]
    obtain ⟨hb1, hb2⟩ := hbound (make_move b mv) (-1000000000) beta
    rcases hrel (make_move b mv) beta with heq | ⟨hle, hcut⟩
    · have hb2p : (fp (make_move b mv)).1 ≤ 1280000 := by omega
      have hb1p : -1280000 ≤ (fp (make_move b mv)).1 := by omega
      rw [heq]
      by_cases hlt : (fp (make_move b mv)).1 < st.1
      · rw [if_pos hlt]
        have hmin : min beta (fp (make_move b mv)).1 = (fp (make_move b mv)).1 := by
          rw [h1]; exact min_eq_right (le_of_lt hlt)
        rw [hmin]
        rw [if_neg (show ¬ (fp (make_move b mv)).1 ≤ (-1000000000 : Int) by omega)]
        exact ih _ _ rfl (by omega)
      · rw [if_neg hlt]
        have hmin : min beta (fp (make_move b mv)).1 = st.1 := by
          rw [h1]; exact min_eq_left (not_lt.mp hlt)
        rw [hmin]
        rw [if_neg (show ¬ st.1 ≤ (-1000000000 : Int) by omega)]
        exact ih st st.1 rfl h2
    · have hnlt : ¬ (f (make_move b mv) (-1000000000) beta).1 < st.1 := by omega
      have hnltp : ¬ (fp (make_move b mv)).1 < st.1 := by omega
      rw [if_neg hnlt, if_neg hnltp]
      have hmin : min beta (f (make_move b mv) (-1000000000) beta).1 = st.1 := by
        rw [min_eq_left (show beta ≤ (f (make_move b mv) (-1000000000) beta).1 by omega)]
        exact h1
      rw [hmin]
      rw [if_neg (show ¬ st.1 ≤ (-1000000000 : Int) by omega)]
      exact ih st st.1 rfl h2

/-! ### Claim C1 -/

/-- C1: at the top-level sentinel window `(-10^9, 10^9)` and depth 1 or
2, the alpha-beta pruned `minimax` returns exactly the same
`(score, move)` pair as the unpruned full minimax `minimax_plain` over
the same game tree, for every board and side to move. -/
theorem alphabeta_equals_full_minimax (b : Board) (c : Color) :
    minimax 1 b c (-1000000000) 1000000000 = minimax_plain 1 b c ∧
    minimax 2 b c (-1000000000) 1000000000 = minimax_plain 2 b c := by
  constructor
  · cases c
    · rw [minimax.eq_2, minimax_plain.eq_2]
      by_cases hemp : (legal_moves b white).isEmpty = true
      · rw [if_pos hemp, if_pos hemp]
      · rw [if_neg hemp, if_neg hemp]
        exact loopW_root_eq (fun b2 a bt => minimax 0 b2 black a bt)
          (fun b2 => minimax_plain 0 b2 black) b
          (fun b2 alpha => Or.inl rfl)
          (fun b2 a bt => minimax_fst_bound 0 b2 black a bt)
          (legal_moves b white) (-1000000000, none) (-1000000000) rfl (by norm_num)
    · rw [minimax.eq_3, minimax_plain.eq_3]
      by_cases hemp : (legal_moves b black).isEmpty = true
      · rw [if_pos hemp, if_pos hemp]
      · rw [if_neg hemp, if_neg hemp]
        exact loopB_root_eq (fun b2 a bt => minimax 0 b2 white a bt)
          (fun b2 => minimax_plain 0 b2 white) b
          (fun b2 beta => Or.inl rfl)
          (fun b2 a bt => minimax_fst_bound 0 b2 white a bt)
          (legal_moves b black) (1000000000, none) 1000000000 rfl (by norm_num)
  · cases c
    · rw [minimax.eq_2, minimax_plain.eq_2]
      by_cases hemp : (legal_moves b white).isEmpty = true
      · rw [if_pos hemp, if_pos hemp]
      · rw [if_neg hemp, if_neg hemp]
        exact loopW_root_eq (fun b2 a bt => minimax 1 b2 black a bt)
          (fun b2 => minimax_plain 1 b2 black) b
          (fun b2 alpha => minimax1_black_rel b2 alpha)
          (fun b2 a bt => minimax_fst_bound 1 b2 black a bt)
          (legal_moves b white) (-1000000000, none) (-1000000000) rfl (by norm_num)
    · rw [minimax.eq_3, minimax_plain.eq_3]
      by_cases hemp : (legal_moves b black).isEmpty = true
      · rw [if_pos hemp, if_pos hemp]
      · rw [if_neg hemp, if_neg hemp]
        exact loopB_root_eq (fun b2 a bt => minimax 1 b2 white a bt)
          (fun b2 => minimax_plain 1 b2 white) b
          (fun b2 beta => minimax1_white_rel b2 beta)
          (fun b2 a bt => minimax_fst_bound 1 b2 white a bt)
          (legal_moves b black) (1000000000, none) 1000000000 rfl (by norm_num)

/-! ### Claim C6: first-best tie-break of the search loops -/

lemma foldl_max_ge_init : ∀ (l : List Int) (a : Int), a ≤ l.foldl max a := by
  intro l
  induction l with
  | nil => intro a; exact le_refl a
  | cons z l ih =>
    intro a
    rw [List.foldl_cons]
    exact le_trans (le_max_left a z) (ih (max a z))

lemma foldl_min_le_init : ∀ (l : List Int) (a : Int), l.foldl min a ≤ a := by
  intro l
  induction l with
  | nil => intro a; exact le_refl a
  | cons z l ih =>
    intro a
    rw [List.foldl_cons]
    exact le_trans (ih (min a z)) (min_le_left a z)

lemma foldl_max_ge_mem : ∀ (l : List Int) (a x : Int), x ∈ l → x ≤ l.foldl max a := by
  intro l
  induction l with
  | nil => intro a x h; simp at h
  | cons y l ih =>
    intro a x h
    rw [List.foldl_cons]
    rcases List.mem_cons.mp h with rfl | h2
    · exact le_trans (le_max_right a x) (foldl_max_ge_init l (max a x))
    · exact ih (max a y) x h2

lemma foldl_min_le_mem : ∀ (l : List Int) (a x : Int), x ∈ l → l.foldl min a ≤ x := by
  intro l
  induction l with
  | nil => intro a x h; simp at h
  | cons y l ih =>
    intro a x h
    rw [List.foldl_cons]
    rcases List.mem_cons.mp h with rfl | h2
    · exact le_trans (foldl_min_le_init l (min a x)) (min_le_right a x)
    · exact ih (min a y) x h2

lemma getD_mem_int : ∀ (l : List Int) (i : Nat), i < l.length → l.getD i 0 ∈ l := by
  intro l
  induction l with
  | nil => intro i h; simp at h
  | cons a l ih =>
    intro i h
    cases i with
    | zero => simp
    | succ i =>
      rw [List.getD_cons_succ]
      exact List.mem_cons_of_mem a (ih i (by simpa using h))

lemma valsW_length (f : Board → Int → Int → Int × Option Move) (b : Board) :
    ∀ (ms : List Move) (alpha : Int), (valsW f b ms alpha).length = ms.length := by
  intro ms
  induction ms with
  | nil => intro alpha; rfl
  | cons mv ms ih => intro alpha; simp only [valsW, List.length_cons, ih]

lemma valsB_length (f : Board → Int → Int → Int × Option Move) (b : Board) :
    ∀ (ms : List Move) (beta : Int), (valsB f b ms beta).length = ms.length := by
  intro ms
  induction ms with
  | nil => intro beta; rfl
  | cons mv ms ih => intro beta; simp only [valsB, List.length_cons, ih]

lemma loopW_select (f : Board → Int → Int → Int × Option Move) (b : Board)
    (hbound : ∀ b2 a bt, -1280000 ≤ (f b2 a bt).1 ∧ (f b2 a bt).1 ≤ 1280000) :
    ∀ (ms : List Move) (st : Int × Option Move) (alpha : Int),
      alpha = st.1 → st.1 < 1000000000 →
      (loopW f b ms st alpha 1000000000).1 = List.foldl max st.1 (valsW f b ms alpha) ∧
      (((loopW f b ms st alpha 1000000000).1 = st.1 ∧
          (loopW f b ms st alpha 1000000000).2 = st.2) ∨
        (∃ i, i < ms.length ∧
          (loopW f b ms st alpha 1000000000).2 = some (ms.getD i ((0,0),(0,0))) ∧
          (valsW f b ms alpha).getD i 0 = (loopW f b ms st alpha 1000000000).1 ∧
          st.1 < (loopW f b ms st alpha 1000000000).1 ∧
          ∀ j, j < i → (valsW f b ms alpha).getD j 0 < (loopW f b ms st alpha 1000000000).1)) := by
  intro ms
  induction ms with
  | nil =>
    intro st alpha h1 h2
    exact ⟨rfl, Or.inl ⟨rfl, rfl⟩⟩
  | cons mv ms ih =>
    intro st alpha h1 h2
    simp only [loopW, valsW]
    obtain ⟨hb1, hb2⟩ := hbound (make_move b mv) alpha 1000000000
    by_cases hgt : (f (make_move b mv) alpha 1000000000).1 > st.1
    · rw [if_pos hgt]
      have hmax : max alpha (f (make_move b mv) alpha 1000000000).1 =
          (f (make_move b mv) alpha 1000000000).1 :=
        max_eq_right (by omega)
      rw [hmax]
      rw [if_neg (show ¬ (1000000000 : Int) ≤ (f (make_move b mv) alpha 1000000000).1 by omega)]
      obtain ⟨ihA, ihB⟩ :=
        ih ((f (make_move b mv) alpha 1000000000).1, some mv)
          (f (make_move b mv) alpha 1000000000).1 rfl (by omega)
      constructor
      · rw [List.foldl_cons, max_eq_right (le_of_lt hgt)]
        exact ihA
      · rcases ihB with ⟨hv, hm⟩ | ⟨i, hlen, hm, hv, hgt2, hall⟩
        · refine Or.inr ⟨0, Nat.succ_pos _, ?_, ?_, ?_, ?_⟩
          · simpa using hm
          · simpa using hv.symm
          · rw [hv]; exact hgt
          · intro j hj; omega
        · refine Or.inr ⟨i + 1, by simpa using Nat.succ_lt_succ hlen, ?_, ?_, ?_, ?_⟩
          · simpa using hm
          · simpa using hv
          · exact lt_trans hgt hgt2
          · intro j hj
            cases j with
            | zero => simpa using hgt2
            | succ j =>
              rw [List.getD_cons_succ]
              exact hall j (by omega)
    · rw [if_neg hgt]
      have hmax : max alpha (f (make_move b mv) alpha 1000000000).1 = st.1 := by
        rw [max_eq_left (show (f (make_move b mv) alpha 1000000000).1 ≤ alpha by omega)]
        exact h1
      rw [hmax]
      rw [if_neg (show ¬ (1000000000 : Int) ≤ st.1 by omega)]
      obtain ⟨ihA, ihB⟩ := ih st st.1 rfl h2
      constructor
      · rw [List.foldl_cons, max_eq_left (not_lt.mp hgt)]
        exact ihA
      · rcases ihB with ⟨hv, hm⟩ | ⟨i, hlen, hm, hv, hgt2, hall⟩
        · exact Or.inl ⟨hv, hm⟩
        · refine Or.inr ⟨i + 1, by simpa using Nat.succ_lt_succ hlen, ?_, ?_, hgt2, ?_⟩
          · simpa using hm
          · simpa using hv
          · intro j hj
            cases j with
            | zero =>
              rw [List.getD_cons_zero]
              omega
            | succ j =>
              rw [List.getD_cons_succ]
              exact hall j (by omega)

lemma loopB_select (f : Board → Int → Int → Int × Option Move) (b : Board)
    (hbound : ∀ b2 a bt, -1280000 ≤ (f b2 a bt).1 ∧ (f b2 a bt).1 ≤ 1280000) :
    ∀ (ms : List Move) (st : Int × Option Move) (beta : Int),
      beta = st.1 → -1000000000 < st.1 →
      (loopB f b ms st (-1000000000) beta).1 = List.foldl min st.1 (valsB f b ms beta) ∧
      (((loopB f b ms st (-1000000000) beta).1 = st.1 ∧
          (loopB f b ms st (-1000000000) beta).2 = st.2) ∨
        (∃ i, i < ms.length ∧
          (loopB f b ms st (-1000000000) beta).2 = some (ms.getD i ((0,0),(0,0))) ∧
          (valsB f b ms beta).getD i 0 = (loopB f b ms st (-1000000000) beta).1 ∧
          (loopB f b ms st (-1000000000) beta).1 < st.1 ∧
          ∀ j, j < i → (loopB f b ms st (-1000000000) beta).1 < (valsB f b ms beta).getD j 0)) := by
  intro ms
  induction ms with
  | nil =>
    intro st beta h1 h2
    exact ⟨rfl, Or.inl ⟨rfl, rfl⟩⟩
  | cons mv ms ih =>
    intro st beta h1 h2
    simp only [loopB, valsB]
    obtain ⟨hb1, hb2⟩ := hbound (make_move b mv) (-1000000000) beta
    by_cases hlt : (f (make_move b mv) (-1000000000) beta).1 < st.1
    · rw [if_pos hlt]
      have hmin : min beta (f (make_move b mv) (-1000000000) beta).1 =
          (f (make_move b mv) (-1000000000) beta).1 :=
        min_eq_right (by omega)
      rw [hmin]
      rw [if_neg (show ¬ (f (make_move b mv) (-1000000000) beta).1 ≤ (-1000000000 : Int) by omega)]
      obtain ⟨ihA, ihB⟩ :=
        ih ((f (make_move b mv) (-1000000000) beta).1, some mv)
          (f (make_move b mv) (-1000000000) beta).1 rfl (by omega)
      constructor
      · rw [List.foldl_cons, min_eq_right (le_of_lt hlt)]
        exact ihA
      · rcases ihB with ⟨hv, hm⟩ | ⟨i, hlen, hm, hv, hlt2, hall⟩
        · refine Or.inr ⟨0, Nat.succ_pos _, ?_, ?_, ?_, ?_⟩
          · simpa using hm
          · simpa using hv.symm
          · rw [hv]; exact hlt
          · intro j hj; omega
        · refine Or.inr ⟨i + 1, by simpa using Nat.succ_lt_succ hlen, ?_, ?_, ?_, ?_⟩
          · simpa using hm
          · simpa using hv
          · exact lt_trans hlt2 hlt
          · intro j hj
            cases j with
            | zero => simpa using hlt2
            | succ j =>
              rw [List.getD_cons_succ]
              exact hall j (by omega)
    · rw [if_neg hlt]
      have hmin : min beta (f (make_move b mv) (-1000000000) beta).1 = st.1 := by
        rw [min_eq_left (show beta ≤ (f (make_move b mv) (-1000000000) beta).1 by omega)]
        exact h1
      rw [hmin]
      rw [if_neg (show ¬ st.1 ≤ (-1000000000 : Int) by omega)]
      obtain ⟨ihA, ihB⟩ := ih st st.1 rfl h2
      constructor
      · rw [List.foldl_cons, min_eq_left (not_lt.mp hlt)]
        exact ihA
      · rcases ihB with ⟨hv, hm⟩ | ⟨i, hlen, hm, hv, hlt2, hall⟩
        · exact Or.inl ⟨hv, hm⟩
        · refine Or.inr ⟨i + 1, by simpa using Nat.succ_lt_succ hlen, ?_, ?_, hlt2, ?_⟩
          · simpa using hm
          · simpa using hv
          · intro j hj
            cases j with
            | zero =>
              rw [List.getD_cons_zero]
              omega
            | succ j =>
              rw [List.getD_cons_succ]
              exact hall j (by omega)

/-- C6: at the top-level sentinel window, for every board, side, and
positive depth with a non-empty legal-move list, the move returned by
`minimax` is the first move in legal-move order whose loop-computed
score (`searchVals`) equals the returned score: every earlier candidate
scores strictly differently, every candidate's score is at most (White)
or at least (Black) the returned score, and a later equal-scoring move
never replaces the recorded best, because the update uses strict
inequality. -/
theorem search_first_best (b : Board) (c : Color) (d : Nat)
    (hne : legal_moves b c ≠ []) :
    ∃ i, i < (legal_moves b c).length ∧
      (minimax (d+1) b c (-1000000000) 1000000000).2 =
        some ((legal_moves b c).getD i ((0,0),(0,0))) ∧
      (searchVals (d+1) b c).getD i 0 = (minimax (d+1) b c (-1000000000) 1000000000).1 ∧
      (∀ j, j < i →
        (searchVals (d+1) b c).getD j 0 ≠ (minimax (d+1) b c (-1000000000) 1000000000).1) ∧
      (∀ j, j < (legal_moves b c).length →
        (if c = white then
          (searchVals (d+1) b c).getD j 0 ≤ (minimax (d+1) b c (-1000000000) 1000000000).1
        else
          (minimax (d+1) b c (-1000000000) 1000000000).1 ≤ (searchVals (d+1) b c).getD j 0)) := by
  cases c
  · obtain ⟨mv, ms2, hms⟩ : ∃ mv ms2, legal_moves b white = mv :: ms2 := by
      cases hls : legal_moves b white with
      | nil => exact absurd hls hne
      | cons a l => exact ⟨a, l, rfl⟩
    have hnemp : ¬ (legal_moves b white).isEmpty = true := by
      rw [List.isEmpty_iff]; exact hne
    have hloop : minimax (d+1) b white (-1000000000) 1000000000 =
        loopW (fun b2 a bt => minimax d b2 black a bt) b (legal_moves b white)
          (-1000000000, none) (-1000000000) 1000000000 := by
      rw [minimax.eq_2, if_neg hnemp]
    have hvals : searchVals (d+1) b white =
        valsW (fun b2 a bt => minimax d b2 black a bt) b (legal_moves b white)
          (-1000000000) := rfl
    obtain ⟨hfold, hsel⟩ :=
      loopW_select (fun b2 a bt => minimax d b2 black a bt) b
        (fun b2 a bt => minimax_fst_bound d b2 black a bt)
        (legal_moves b white) (-1000000000, none) (-1000000000) rfl (by norm_num)
    rcases hsel with ⟨hv, -⟩ | ⟨i, hlen, hm, hv, -, hall⟩
    · exfalso
      have hmem : (minimax d (make_move b mv) black (-1000000000) 1000000000).1 ∈
          valsW (fun b2 a bt => minimax d b2 black a bt) b (legal_moves b white)
            (-1000000000) := by
        rw [hms]
        simp only [valsW]
        exact List.mem_cons_self _ _
      have hle := foldl_max_ge_mem _ (-1000000000) _ hmem
      have hbd := minimax_fst_bound d (make_move b mv) black (-1000000000) 1000000000
      rw [← hfold, hv] at hle
      omega
    · refine ⟨i, hlen, ?_, ?_, ?_, ?_⟩
      · rw [hloop]; exact hm
      · rw [hloop, hvals]; exact hv
      · intro j hj
        rw [hloop, hvals]
        exact ne_of_lt (hall j hj)
      · intro j hj
        rw [if_pos rfl, hloop, hvals, hfold]
        apply foldl_max_ge_mem
        apply getD_mem_int
        rw [valsW_length]
        exact hj
  · obtain ⟨mv, ms2, hms⟩ : ∃ mv ms2, legal_moves b black = mv :: ms2 := by
      cases hls : legal_moves b black with
      | nil => exact absurd hls hne
      | cons a l => exact ⟨a, l, rfl⟩
    have hnemp : ¬ (legal_moves b black).isEmpty = true := by
      rw [List.isEmpty_iff]; exact hne
    have hloop : minimax (d+1) b black (-1000000000) 1000000000 =
        loopB (fun b2 a bt => minimax d b2 white a bt) b (legal_moves b black)
          (1000000000, none) (-1000000000) 1000000000 := by
      rw [minimax.eq_3, if_neg hnemp]
    have hvals : searchVals (d+1) b black =
        valsB (fun b2 a bt => minimax d b2 white a bt) b (legal_moves b black)
          1000000000 := rfl
    obtain ⟨hfold, hsel⟩ :=
      loopB_select (fun b2 a bt => minimax d b2 white a bt) b
        (fun b2 a bt => minimax_fst_bound d b2 white a bt)
        (legal_moves b black) (1000000000, none) 1000000000 rfl (by norm_num)
    rcases hsel with ⟨hv, -⟩ | ⟨i, hlen, hm, hv, -, hall⟩
    · exfalso
      have hmem : (minimax d (make_move b mv) white (-1000000000) 1000000000).1 ∈
          valsB (fun b2 a bt => minimax d b2 white a bt) b (legal_moves b black)
            1000000000 := by
        rw [hms]
        simp only [valsB]
        exact List.mem_cons_self _ _
      have hle := foldl_min_le_mem _ 1000000000 _ hmem
      have hbd := minimax_fst_bound d (make_move b mv) white (-1000000000) 1000000000
      rw [← hfold, hv] at hle
      omega
    · refine ⟨i, hlen, ?_, ?_, ?_, ?_⟩
      · rw [hloop]; exact hm
      · rw [hloop, hvals]; exact hv
      · intro j hj
        rw [hloop, hvals]
        exact ne_of_gt (hall j hj)
      · intro j hj
        rw [if_neg (fun h => Color.noConfusion h), hloop, hvals, hfold]
        apply foldl_min_le_mem
        apply getD_mem_int
        rw [valsB_length]
        exact hj

/-- Witness for C6: the initial position, White to move, depth 1. -/
theorem search_first_best_witness :
    legal_moves initial_board white ≠ [] ∧
    ∃ i, i < (legal_moves initial_board white).length ∧
      (minimax 1 initial_board white (-1000000000) 1000000000).2 =
        some ((legal_moves initial_board white).getD i ((0,0),(0,0))) ∧
      (searchVals 1 initial_board white).getD i 0 =
        (minimax 1 initial_board white (-1000000000) 1000000000).1 ∧
      (∀ j, j < i →
        (searchVals 1 initial_board white).getD j 0 ≠
          (minimax 1 initial_board white (-1000000000) 1000000000).1) ∧
      (∀ j, j < (legal_moves initial_board white).length →
        (if white = white then
          (searchVals 1 initial_board white).getD j 0 ≤
            (minimax 1 initial_board white (-1000000000) 1000000000).1
        else
          (minimax 1 initial_board white (-1000000000) 1000000000).1 ≤
            (searchVals 1 initial_board white).getD j 0)) :=
  ⟨by decide, search_first_best initial_board white 0 (by decide)⟩
